import Mathlib

/-!
Verification of the `dontpanic` bitcrusher audio plugin core (src/lib.rs).

The per-sample transform (lines 118-133 of src/lib.rs) operates on `f32`
samples; we embed `f32` arithmetic as exact real arithmetic.  The one IEEE
phenomenon the code can hit is the division `x / channel_crush` when
`channel_crush` is zero: in that case `x * channel_crush` is `0.0` for every
finite input sample, `round(0.0) = 0.0`, and `0.0 / 0.0` is NaN.  We model a
NaN result as `Option.none`; for every nonzero `channel_crush` the result is
`some` of the real value the chain computes.

The parameter-smoothing engine lives in the external `nih_plug` crate; the
code only calls `self.params.crush.smoothed.next()` once per frame.  We model
the smoother abstractly as a stream of values together with a position that
`next` advances by one.
-/

namespace Dontpanic

/-- nih-plug `FloatRange`; the code uses only the `Linear` variant
(src/lib.rs lines 39-42). -/
inductive FloatRange where
  | Linear (min max : ℝ)
  | Skewed (min max factor : ℝ)

/-- nih-plug `SmoothingStyle`; the code uses `Linear(50.0)`
(src/lib.rs line 46). -/
inductive SmoothingStyle where
  | None
  | Linear (duration : ℝ)
  | Logarithmic (duration : ℝ)
  | Exponential (duration : ℝ)

/-- The metadata of a nih-plug `FloatParam` that the source sets. -/
structure FloatParam where
  name : String
  default : ℝ
  range : FloatRange
  smoothing : SmoothingStyle

/-- `FloatParam::new(name, default, range)` (no smoothing until a builder
adds one). -/
def FloatParam.new (name : String) (default : ℝ) (range : FloatRange) : FloatParam :=
  { name := name, default := default, range := range, smoothing := SmoothingStyle.None }

/-- `FloatParam::with_smoother(style)` builder (src/lib.rs line 46). -/
def FloatParam.with_smoother (p : FloatParam) (s : SmoothingStyle) : FloatParam :=
  { p with smoothing := s }

/-- `DontpanicParams` (src/lib.rs lines 12-20): a single `crush` parameter. -/
structure DontpanicParams where
  crush : FloatParam

/-- The `#[id = "gain"]` attribute on the `crush` field (src/lib.rs line 18):
the host-visible identifier of the parameter. -/
def crushParamId : String := "gain"

/-- `DontpanicParams::default` (src/lib.rs lines 30-49):
`FloatParam::new("Crush", 0.0, FloatRange::Linear { min: 20.0, max: 50.0 })
.with_smoother(SmoothingStyle::Linear(50.0))`. -/
def DontpanicParams.default : DontpanicParams :=
  { crush := (FloatParam.new "Crush" 0.0
      (FloatRange.Linear 20.0 50.0)).with_smoother (SmoothingStyle.Linear 50.0) }

/-- nih-plug `ProcessStatus`. -/
inductive ProcessStatus where
  | Error (msg : String)
  | Normal
  | Tail (samples : ℕ)
  | KeepAlive
  deriving DecidableEq

/-- Rust `f32::round`: round half away from zero.  Mathlib's `round` rounds
half toward positive infinity, so the negative half-integers are negated
through. -/
noncomputable def roundAway (x : ℝ) : ℤ :=
  if x < 0 then -round (-x) else round x

/-- The effective crush for a channel (src/lib.rs lines 119-123): the left
channel (index 0) gets the fixed `1.05` boost. -/
noncomputable def channel_crush (crush : ℝ) (channel : ℕ) : ℝ :=
  if channel = 0 then crush * 1.05 else crush

/-- The body of the per-sample loop (src/lib.rs lines 118-133):
`x * channel_crush`, `round`, `/ channel_crush`, `abs`, `tanh`.
`none` is the NaN produced by `0.0 / 0.0` when `channel_crush` is zero
(the numerator `round(x * 0.0)` is zero for every sample). -/
noncomputable def process_sample (crush : ℝ) (channel : ℕ) (x : ℝ) : Option ℝ :=
  let cc := channel_crush crush channel
  if cc = 0 then none
  else some (Real.tanh |((roundAway (x * cc) : ℤ) : ℝ) / cc|)

/-- The external smoother, abstracted: a stream of smoothed values and the
position `next` has reached. -/
structure Smoother where
  values : ℕ → ℝ
  pos : ℕ

/-- `smoothed.next()`: advance by exactly one step and yield the value. -/
def Smoother.next (s : Smoother) : ℝ × Smoother :=
  (s.values s.pos, { values := s.values, pos := s.pos + 1 })

/-- The inner loop over one frame's channel samples (src/lib.rs lines
116-136): the mutable `channel` counter starts at 0 and is incremented once
per sample. -/
noncomputable def processChannels (crush : ℝ) : ℕ → List ℝ → List (Option ℝ)
  | _, [] => []
  | channel, x :: rest =>
      process_sample crush channel x :: processChannels crush (channel + 1) rest

/-- The outer loop over frames (src/lib.rs lines 112-137): one `next()` call
per frame, then the whole frame is processed with that single value. -/
noncomputable def processBlock : Smoother → List (List ℝ) → Smoother × List (List (Option ℝ))
  | s, [] => (s, [])
  | s, frame :: rest =>
      let crush := (s.next).1
      let tail := processBlock (s.next).2 rest
      (tail.1, processChannels crush 0 frame :: tail.2)

/-- `Plugin::process` (src/lib.rs lines 106-140): run the loop and return
`ProcessStatus::Normal`. -/
noncomputable def process (s : Smoother) (buffer : List (List ℝ)) :
    Smoother × List (List (Option ℝ)) × ProcessStatus :=
  ((processBlock s buffer).1, (processBlock s buffer).2, ProcessStatus.Normal)

/-! ### Helper lemmas about `tanh` and the transform -/

lemma tanh_eq_exp (x : ℝ) :
    Real.tanh x = (Real.exp (2 * x) - 1) / (Real.exp (2 * x) + 1) := by
  have hx : Real.exp x ≠ 0 := (Real.exp_pos x).ne'
  have hd : Real.exp x + (Real.exp x)⁻¹ ≠ 0 := by positivity
  have hd2 : Real.exp x * Real.exp x + 1 ≠ 0 := by positivity
  rw [Real.tanh_eq_sinh_div_cosh, Real.sinh_eq, Real.cosh_eq, Real.exp_neg,
    two_mul, Real.exp_add]
  field_simp

lemma tanh_nonneg {x : ℝ} (hx : 0 ≤ x) : 0 ≤ Real.tanh x := by
  rw [tanh_eq_exp]
  have h1 : (1:ℝ) ≤ Real.exp (2 * x) := by
    rw [← Real.exp_zero]
    exact Real.exp_le_exp.mpr (by linarith)
  have h2 : (0:ℝ) < Real.exp (2 * x) + 1 := by positivity
  apply div_nonneg <;> linarith

lemma tanh_lt_one (x : ℝ) : Real.tanh x < 1 := by
  rw [tanh_eq_exp]
  have h2 : (0:ℝ) < Real.exp (2 * x) + 1 := by positivity
  rw [div_lt_one h2]
  linarith

lemma tanh_lt_tanh {a b : ℝ} (h : a < b) : Real.tanh a < Real.tanh b := by
  rw [tanh_eq_exp, tanh_eq_exp]
  have ha : (0:ℝ) < Real.exp (2 * a) := Real.exp_pos _
  have hb : (0:ℝ) < Real.exp (2 * b) := Real.exp_pos _
  have hab : Real.exp (2 * a) < Real.exp (2 * b) :=
    Real.exp_lt_exp.mpr (by linarith)
  rw [div_lt_div_iff₀ (by positivity) (by positivity)]
  nlinarith

lemma process_sample_of_ne {crush : ℝ} {channel : ℕ} (x : ℝ)
    (h : channel_crush crush channel ≠ 0) :
    process_sample crush channel x =
      some (Real.tanh |((roundAway (x * channel_crush crush channel) : ℤ) : ℝ) /
        channel_crush crush channel|) := by
  simp only [process_sample]
  rw [if_neg h]

lemma channel_crush_ne_zero {c : ℝ} (hc : c ≠ 0) (ch : ℕ) :
    channel_crush c ch ≠ 0 := by
  unfold channel_crush
  split
  · exact mul_ne_zero hc (by norm_num)
  · exact hc

lemma process_sample_right (c : ℝ) (hc : c ≠ 0) (x : ℝ) :
    process_sample c 1 x = some (Real.tanh |((roundAway (x * c) : ℤ) : ℝ) / c|) := by
  have hcc : channel_crush c 1 = c := by simp [channel_crush]
  rw [process_sample_of_ne x (by rw [hcc]; exact hc), hcc]

lemma roundAway_eq_of (x : ℝ) (n : ℤ) (h0 : 0 ≤ x) (h1 : (n:ℝ) ≤ x + 1/2)
    (h2 : x + 1/2 < n + 1) : roundAway x = n := by
  unfold roundAway
  rw [if_neg (not_lt.mpr h0), round_eq]
  exact Int.floor_eq_iff.mpr ⟨h1, by linarith⟩

lemma processBlock_pos (s : Smoother) (frames : List (List ℝ)) :
    (processBlock s frames).1.pos = s.pos + frames.length := by
  induction frames generalizing s with
  | nil => simp [processBlock]
  | cons f fs ih =>
    simp only [processBlock]
    rw [ih]
    simp only [Smoother.next, List.length_cons]
    omega

lemma processBlock_values (s : Smoother) (frames : List (List ℝ)) :
    (processBlock s frames).1.values = s.values := by
  induction frames generalizing s with
  | nil => simp [processBlock]
  | cons f fs ih =>
    simp only [processBlock]
    rw [ih]
    rfl

lemma processBlock_get (s : Smoother) (frames : List (List ℝ)) (i : ℕ) :
    ((processBlock s frames).2).get? i =
      (frames.get? i).map (processChannels (s.values (s.pos + i)) 0) := by
  induction frames generalizing s i with
  | nil => simp [processBlock]
  | cons f fs ih =>
    cases i with
    | zero => simp [processBlock, Smoother.next]
    | succ n =>
      simp only [processBlock, List.get?_cons_succ]
      rw [ih]
      have hp : s.pos + 1 + n = s.pos + (n + 1) := by omega
      simp only [Smoother.next, hp]

/-! ### Claim theorems -/

/-- C1: for every crush value in [20, 50] and every input sample in [-1, 1],
the right channel (index ≠ 0) produces a value in the half-open interval
[0, 1). -/
theorem right_channel_output_in_unit_interval (c : ℝ) (hc1 : 20 ≤ c) (hc2 : c ≤ 50)
    (x : ℝ) (hx1 : -1 ≤ x) (hx2 : x ≤ 1) (ch : ℕ) (hch : ch ≠ 0) :
    ∃ y, process_sample c ch x = some y ∧ 0 ≤ y ∧ y < 1 := by
  have hcc : channel_crush c ch = c := by simp [channel_crush, hch]
  have hne : channel_crush c ch ≠ 0 := by rw [hcc]; intro h; linarith [h ▸ hc1]
  exact ⟨_, process_sample_of_ne x hne, tanh_nonneg (abs_nonneg _), tanh_lt_one _⟩

/-- Witness for C1 at crush 20, sample 0.5, channel 1. -/
theorem right_channel_output_in_unit_interval_witness :
    ∃ y, process_sample 20 1 0.5 = some y ∧ 0 ≤ y ∧ y < 1 :=
  right_channel_output_in_unit_interval 20 (by norm_num) (by norm_num)
    0.5 (by norm_num) (by norm_num) 1 (by norm_num)

/-- C2: the left channel (index 0) at crush `c` computes exactly what the
right channel (index ≠ 0) computes at crush `c * 1.05`, on the same input. -/
theorem left_channel_eq_right_with_boosted_crush (c x : ℝ) (ch : ℕ) (hch : ch ≠ 0) :
    process_sample c 0 x = process_sample (c * 1.05) ch x := by
  simp [process_sample, channel_crush, hch]

/-- Witness for C2 at crush 20, sample 0.5, right channel 1. -/
theorem left_channel_eq_right_with_boosted_crush_witness :
    process_sample 20 0 0.5 = process_sample (20 * 1.05) 1 0.5 :=
  left_channel_eq_right_with_boosted_crush 20 0.5 1 (by norm_num)

/-- C3 counterexample: at smoothed crush 0 (reachable: the parameter's
default is 0.0) the output is NaN (`none`), not a non-negative number. -/
theorem output_nonneg_counterexample :
    ¬ ∃ y, process_sample 0 1 0 = some y ∧ 0 ≤ y := by
  have h : process_sample 0 1 0 = none := by
    simp [process_sample, channel_crush]
  simp [h]

/-- C3 amended: for every nonzero smoothed crush value, every channel index
and every input sample, the output is defined and non-negative. -/
theorem output_nonneg_of_crush_ne_zero (c : ℝ) (hc : c ≠ 0) (ch : ℕ) (x : ℝ) :
    ∃ y, process_sample c ch x = some y ∧ 0 ≤ y :=
  ⟨_, process_sample_of_ne x (channel_crush_ne_zero hc ch),
    tanh_nonneg (abs_nonneg _)⟩

/-- Witness for amended C3 at crush 20, left channel, sample -0.3. -/
theorem output_nonneg_of_crush_ne_zero_witness :
    ∃ y, process_sample 20 0 (-0.3) = some y ∧ 0 ≤ y :=
  output_nonneg_of_crush_ne_zero 20 (by norm_num) 0 (-0.3)

/-- C6: with crush in the valid range [20, 50], an input sample of exactly 0
produces output exactly 0 on every channel (silence is preserved). -/
theorem silence_preserved (c : ℝ) (hc1 : 20 ≤ c) (hc2 : c ≤ 50) (ch : ℕ) :
    process_sample c ch 0 = some 0 := by
  have hne : channel_crush c ch ≠ 0 :=
    channel_crush_ne_zero (by intro h; rw [h] at hc1; linarith) ch
  rw [process_sample_of_ne 0 hne, zero_mul]
  have hr : roundAway (0:ℝ) = 0 := by simp [roundAway]
  rw [hr]
  norm_num [Real.tanh_zero]

/-- Witness for C6 at crush 20, channel 1. -/
theorem silence_preserved_witness : process_sample 20 1 0 = some 0 :=
  silence_preserved 20 (by norm_num) (by norm_num) 1

/-- C7: `process` always returns `ProcessStatus.Normal`, on every smoother
state and every buffer. -/
theorem process_returns_normal (s : Smoother) (buffer : List (List ℝ)) :
    (process s buffer).2.2 = ProcessStatus.Normal := rfl

/-- C9: the crush parameter is built with name "Crush", host id "gain",
linear range [20, 50], linear smoothing over 50 time-units, and default 0,
which lies outside the declared range. -/
theorem crush_param_metadata :
    DontpanicParams.default.crush.name = "Crush" ∧
    crushParamId = "gain" ∧
    DontpanicParams.default.crush.range = FloatRange.Linear 20 50 ∧
    DontpanicParams.default.crush.smoothing = SmoothingStyle.Linear 50 ∧
    DontpanicParams.default.crush.default = 0 ∧
    ¬ (20 ≤ DontpanicParams.default.crush.default ∧
        DontpanicParams.default.crush.default ≤ 50) := by
  refine ⟨rfl, rfl,
    by norm_num [DontpanicParams.default, FloatParam.new, FloatParam.with_smoother],
    by norm_num [DontpanicParams.default, FloatParam.new, FloatParam.with_smoother],
    by norm_num [DontpanicParams.default, FloatParam.new, FloatParam.with_smoother], ?_⟩
  intro h
  have := h.1
  norm_num [DontpanicParams.default, FloatParam.new, FloatParam.with_smoother] at this

/-- C4: with crush settled at 20 and input sample 0.5: the right channel has
channel crush 20, scales to 10, rounds to 10, restores 0.5 and outputs
tanh 0.5; the left channel has channel crush 21, scales to 10.5, rounds half
away from zero to 11, restores 11/21 and outputs tanh (11/21). -/
theorem settled_crush20_sample_half :
    channel_crush 20 1 = 20 ∧ (0.5:ℝ) * channel_crush 20 1 = 10 ∧
    roundAway ((0.5:ℝ) * channel_crush 20 1) = 10 ∧
    ((10:ℤ):ℝ) / channel_crush 20 1 = 0.5 ∧
    process_sample 20 1 0.5 = some (Real.tanh 0.5) ∧
    channel_crush 20 0 = 21 ∧ (0.5:ℝ) * channel_crush 20 0 = 10.5 ∧
    roundAway ((0.5:ℝ) * channel_crush 20 0) = 11 ∧
    ((11:ℤ):ℝ) / channel_crush 20 0 = 11 / 21 ∧
    process_sample 20 0 0.5 = some (Real.tanh (11 / 21)) := by
  have hcc1 : channel_crush 20 1 = 20 := by simp [channel_crush]
  have hcc0 : channel_crush 20 0 = 21 := by
    simp [channel_crush]
    norm_num
  have hr10 : roundAway (10:ℝ) = 10 :=
    roundAway_eq_of 10 10 (by norm_num) (by norm_num) (by norm_num)
  have hr105 : roundAway (10.5:ℝ) = 11 :=
    roundAway_eq_of 10.5 11 (by norm_num) (by norm_num) (by norm_num)
  refine ⟨hcc1, by rw [hcc1]; norm_num, ?_, by rw [hcc1]; norm_num, ?_, hcc0,
    by rw [hcc0]; norm_num, ?_, by rw [hcc0]; norm_num, ?_⟩
  · rw [hcc1]
    rw [show (0.5:ℝ) * 20 = 10 by norm_num]
    exact hr10
  · rw [process_sample_right 20 (by norm_num) 0.5]
    rw [show (0.5:ℝ) * 20 = 10 by norm_num, hr10]
    rw [show |((10:ℤ):ℝ) / 20| = 0.5 by rw [abs_of_nonneg (by norm_num)]; norm_num]
  · rw [hcc0]
    rw [show (0.5:ℝ) * 21 = 10.5 by norm_num]
    exact hr105
  · rw [process_sample_of_ne 0.5 (by rw [hcc0]; norm_num), hcc0]
    rw [show (0.5:ℝ) * 21 = 10.5 by norm_num, hr105]
    rw [show |((11:ℤ):ℝ) / 21| = 11 / 21 by rw [abs_of_nonneg (by norm_num)]; norm_num]

/-- C5: the parameter's declared default 0.0 lies below the declared range
floor 20.0; at crush 0 the effective channel crush of both channels is 0,
the scaled sample is 0 (so the division is 0.0/0.0), and the output of the
transform is NaN (`none`): the transform is not total. -/
theorem default_crush_zero_division_nan :
    DontpanicParams.default.crush.default = 0 ∧
    ¬ (20 ≤ DontpanicParams.default.crush.default) ∧
    channel_crush 0 0 = 0 ∧ channel_crush 0 1 = 0 ∧
    roundAway ((0:ℝ) * channel_crush 0 0) = 0 ∧
    process_sample 0 0 0 = none ∧
    process_sample 0 1 0 = none := by
  refine ⟨?_, ?_, ?_, ?_, ?_, ?_, ?_⟩
  · norm_num [DontpanicParams.default, FloatParam.new, FloatParam.with_smoother]
  · norm_num [DontpanicParams.default, FloatParam.new, FloatParam.with_smoother]
  · simp [channel_crush]
  · simp [channel_crush]
  · rw [zero_mul]
    simp [roundAway]
  · simp [process_sample, channel_crush]
  · simp [process_sample, channel_crush]

/-- C10: the transform is not idempotent: at crush 20, right channel, input
0.5 it outputs tanh(1/2), and re-applying it to that output gives
tanh(9/20), a different value (the quantization is lossy). -/
theorem process_sample_not_idempotent :
    ∃ (c : ℝ) (ch : ℕ) (x y z : ℝ), 20 ≤ c ∧ c ≤ 50 ∧
      process_sample c ch x = some y ∧ process_sample c ch y = some z ∧
      z ≠ y := by
  have ht : Real.tanh (1/2) = (Real.exp 1 - 1) / (Real.exp 1 + 1) := by
    rw [tanh_eq_exp]
    norm_num
  have he1 : (2.7182818283 : ℝ) < Real.exp 1 := Real.exp_one_gt_d9
  have he2 : Real.exp 1 < 2.7182818286 := Real.exp_one_lt_d9
  have hep : (0:ℝ) < Real.exp 1 + 1 := by positivity
  have hlo : (8.5:ℝ) ≤ Real.tanh (1/2) * 20 := by
    rw [ht, div_mul_eq_mul_div, le_div_iff₀ hep]
    nlinarith
  have hhi : Real.tanh (1/2) * 20 < 9.5 := by
    rw [ht, div_mul_eq_mul_div, div_lt_iff₀ hep]
    nlinarith
  refine ⟨20, 1, 0.5, Real.tanh (1/2), Real.tanh (9/20), by norm_num, by norm_num,
    ?_, ?_, ?_⟩
  · rw [process_sample_right 20 (by norm_num) 0.5]
    rw [show (0.5:ℝ) * 20 = 10 by norm_num]
    rw [roundAway_eq_of 10 10 (by norm_num) (by norm_num) (by norm_num)]
    rw [show |((10:ℤ):ℝ) / 20| = 1/2 by rw [abs_of_nonneg (by norm_num)]; norm_num]
  · rw [process_sample_right 20 (by norm_num) (Real.tanh (1/2))]
    rw [roundAway_eq_of (Real.tanh (1/2) * 20) 9
      (mul_nonneg (tanh_nonneg (by norm_num)) (by norm_num))
      (by push_cast; linarith) (by push_cast; linarith)]
    rw [show |((9:ℤ):ℝ) / 20| = 9/20 by rw [abs_of_nonneg (by norm_num)]; norm_num]
  · exact ne_of_lt (tanh_lt_tanh (by norm_num))

/-- C8: block processing advances the smoother exactly once per frame (final
position = start position + number of frames), every channel sample of frame
`i` is processed with the single smoothed value drawn for that frame, and
the left channel's value is the `1.05`-scaled variant. -/
theorem smoother_advances_once_per_frame (s : Smoother) (frames : List (List ℝ)) :
    (processBlock s frames).1.pos = s.pos + frames.length ∧
    (processBlock s frames).1.values = s.values ∧
    (∀ i : ℕ, ((processBlock s frames).2).get? i =
      (frames.get? i).map (processChannels (s.values (s.pos + i)) 0)) ∧
    (∀ c x : ℝ, process_sample c 0 x = process_sample (c * 1.05) 1 x) :=
  ⟨processBlock_pos s frames, processBlock_values s frames,
    fun i => processBlock_get s frames i,
    fun c x => by simp [process_sample, channel_crush]⟩

end Dontpanic
